import Mathlib

/-!
Verification of the active-space selection pipeline of the `cinoas` package
(`cinoas/cinoas.py`).  The function `find_active_space` receives the natural
orbital occupations of the occupied and virtual manifolds, blocked by
irreducible representation (irrep), and a dictionary of selection options.
We embed the function shallowly: Python floats are modelled by `ℚ` (the
source performs only field arithmetic and comparisons), the options and
results dictionaries by structures of `Option`-valued fields, and the
`IndexError` that Python raises on an out-of-range list subscript by an
`Except` error value.  Division in the source is numpy float division,
which never raises (dividing by zero yields inf/nan and the program keeps
running); accordingly the embedding uses total division on `ℚ`.
-/

namespace Cinoas

/-- An entry of the flattened occupation lists built by `find_active_space`:
the Python tuple `(sym, occus, index_in_irrep)`. -/
abbrev Entry : Type := ℕ × ℚ × ℕ

/-- The recognised selection options of `find_active_space` (the
`print_level` key only controls diagnostic output and is omitted).  A field
holding `none` models the key being absent from the Python dict. -/
structure Options where
  threshold_occ : Option ℚ := none
  threshold_vir : Option ℚ := none
  num_act_occ : Option ℕ := none
  num_act_vir : Option ℕ := none
deriving Repr, DecidableEq

/-- The results dictionary returned by `find_active_space`.  `Option`-valued
fields model keys that the source only writes on some execution paths. -/
structure Results where
  sigma_o : Option ℚ := none
  sigma_v : Option ℚ := none
  nact_occ : Option ℕ := none
  nact_vir : Option ℕ := none
  active : List ℕ := []
  nact : ℕ := 0
  occ_denominator : ℚ := 0
  vir_denominator : ℚ := 0
deriving Repr, DecidableEq

/-- Runtime failures of the embedded code: Python's `IndexError`, raised by
`noocs_occupied[k]` / `noocs_virtual[k]` when `k` is out of range. -/
inductive Err where
  | indexError
deriving Repr, DecidableEq

/-- One block's worth of tagged entries:
`[(sym, occus, index_in_irrep) for index_in_irrep, occus in enumerate(vs)]`. -/
def tagBlock (sym : ℕ) (vs : List ℚ) : List Entry :=
  vs.enum.map (fun p => (sym, p.2, p.1))

/-- The block loop of `find_active_space` (lines 137-148 of the source):
walking `zip(noocs_occ, noocs_vir)` with a running irrep counter `sym`, it
accumulates the tagged occupied list, the tagged virtual list,
`occ_denominator = Σ_h (n_occ_h - Σ noocs_occupied_h)` and
`vir_denominator = Σ_h Σ noocs_virtual_h`.  The `nirrep == 1` branch of
the source (lines 127-135) computes exactly the same four values for a
one-block input, so the embedding uses the general form throughout. -/
def tagFrom (sym : ℕ) : List (List ℚ × List ℚ) → List Entry × List Entry × ℚ × ℚ
  | [] => ([], [], 0, 0)
  | (ob, vb) :: rest =>
    let r := tagFrom (sym + 1) rest
    (tagBlock sym ob ++ r.1, tagBlock sym vb ++ r.2.1,
      ((ob.length : ℚ) - ob.sum) + r.2.2.1, vb.sum + r.2.2.2)

/-- The flattened, tagged occupied list `noocs_occupied` before sorting. -/
def buildOccupied (occB virB : List (List ℚ)) : List Entry :=
  (tagFrom 0 (occB.zip virB)).1

/-- The flattened, tagged virtual list `noocs_virtual` before sorting. -/
def buildVirtual (occB virB : List (List ℚ)) : List Entry :=
  (tagFrom 0 (occB.zip virB)).2.1

/-- The normalisation denominator `occ_denominator` of the occupied
manifold: total occupied orbital count minus the sum of occupied
occupations. -/
def occDenominator (occB virB : List (List ℚ)) : ℚ :=
  (tagFrom 0 (occB.zip virB)).2.2.1

/-- The normalisation denominator `vir_denominator` of the virtual
manifold: the sum of all virtual occupations. -/
def virDenominator (occB virB : List (List ℚ)) : ℚ :=
  (tagFrom 0 (occB.zip virB)).2.2.2

/-- The comparison key of `noocs_occupied.sort(key=lambda t: t[1])`:
compare entries by occupation value, ascending. -/
def occLE (a b : Entry) : Prop := a.2.1 ≤ b.2.1

instance : DecidableRel occLE := fun a b => inferInstanceAs (Decidable (a.2.1 ≤ b.2.1))

/-- The comparison of `noocs_virtual.sort(reverse=True, key=lambda t: t[1])`:
compare entries by occupation value, descending. -/
def virGE (a b : Entry) : Prop := b.2.1 ≤ a.2.1

instance : DecidableRel virGE := fun a b => inferInstanceAs (Decidable (b.2.1 ≤ a.2.1))

/-- Python's `list.sort` is stable; a stable sort's output is uniquely
determined by the input order and the (total, transitive) key comparison,
so stable insertion sort computes the same list. -/
def sortOccupied (l : List Entry) : List Entry := List.insertionSort occLE l

/-- Stable descending sort of the virtual list (`reverse=True` keeps the
original order of entries with equal keys). -/
def sortVirtual (l : List Entry) : List Entry := List.insertionSort virGE l

/-- The statement `active[irrep] += 1` of the source.  Every irrep tag the
program produces is a valid index of `active`, so `List.set` is faithful. -/
def incr (active : List ℕ) (h : ℕ) : List ℕ := active.set h (active.getD h 0 + 1)

/-- The threshold-mode selection loop (lines 158-164 / 173-179 of the
source), parametrised by the per-orbital contribution `f` (`1 - occus` for
the occupied manifold, `occus` for the virtual one).  State: the running
numerator, the per-block `active` counters, and the per-manifold count
`nact`.  The source adds the contribution, tests
`numerator/denominator > threshold`, and on failure subtracts the
contribution back and breaks; the embedding leaves the numerator untouched
in that branch, which is the same state. -/
def threshLoop (f : ℚ → ℚ) (thr d : ℚ) :
    List Entry → ℚ → List ℕ → ℕ → ℚ × List ℕ × ℕ
  | [], num, active, nact => (num, active, nact)
  | e :: rest, num, active, nact =>
    if (num + f e.2.1) / d > thr then (num, active, nact)
    else threshLoop f thr d rest (num + f e.2.1) (incr active e.1) (nact + 1)

/-- The fixed-count selection loop (lines 188-193 / 198-203 of the source):
`for k in range(n): irrep, occus, i = sorted_list[k]; numerator += f occus;
active[irrep] += 1`.  Python raises `IndexError` at the first subscript
`k ≥ len(sorted_list)`, i.e. exactly when `n` exceeds the list length. -/
def fixedLoop (f : ℚ → ℚ) : ℕ → List Entry → ℚ → List ℕ → Except Err (ℚ × List ℕ)
  | 0, _, num, active => .ok (num, active)
  | _ + 1, [], _, _ => .error .indexError
  | n + 1, e :: rest, num, active => fixedLoop f n rest (num + f e.2.1) (incr active e.1)

/-- One `if 'threshold_…' in options` block of the source (lines 156-168 /
171-183): when the threshold key is present, run the threshold loop from a
zero numerator and record the achieved fraction and the per-manifold
count; when absent, leave the numerator at zero, the counters untouched,
and the two result keys unwritten. -/
def threshStage (topt : Option ℚ) (f : ℚ → ℚ) (d : ℚ) (l : List Entry)
    (act : List ℕ) : ℚ × List ℕ × Option ℚ × Option ℕ :=
  match topt with
  | none => (0, act, none, none)
  | some thr =>
    let r := threshLoop f thr d l 0 act 0
    (r.1, r.2.1, some (r.1 / d), some r.2.2)

/-- One `if 'num_act_…' in options` block of the source (lines 186-194 /
196-204): when the fixed-count key is present, run the fixed-count loop
starting from the numerator left by the threshold branch, overwriting the
achieved-fraction key; when absent, pass the counters and the fraction key
through unchanged. -/
def fixedStage (nopt : Option ℕ) (f : ℚ → ℚ) (d : ℚ) (l : List Entry) (num : ℚ)
    (act : List ℕ) (sig : Option ℚ) : Except Err (List ℕ × Option ℚ) :=
  match nopt with
  | none => .ok (act, sig)
  | some k =>
    match fixedLoop f k l num act with
    | .error e => .error e
    | .ok r => .ok (r.2, some (r.1 / d))

/-- The selection phase of `find_active_space` (lines 153-218), acting on
the already sorted lists, the two denominators and the irrep count.  The
four option-guarded branches run in source order and thread the shared
state exactly as the Python function does: `active` flows through all four
branches, `occ_numerator` from the `threshold_occ` branch into the
`num_act_occ` branch, `vir_numerator` from the `threshold_vir` branch into
the `num_act_vir` branch.  The fixed-count branches overwrite `sigma_o` /
`sigma_v` but never write `nact_occ` / `nact_vir`. -/
def select (occL virL : List Entry) (od vd : ℚ) (nirrep : ℕ) (opts : Options) :
    Except Err Results :=
  let active0 := List.replicate nirrep 0
  let t1 := threshStage opts.threshold_occ (fun v => 1 - v) od occL active0
  let t2 := threshStage opts.threshold_vir (fun v => v) vd virL t1.2.1
  match fixedStage opts.num_act_occ (fun v => 1 - v) od occL t1.1 t2.2.1 t1.2.2.1 with
  | .error e => .error e
  | .ok p1 =>
    match fixedStage opts.num_act_vir (fun v => v) vd virL t2.1 p1.1 t2.2.2.1 with
    | .error e => .error e
    | .ok p2 =>
      .ok { sigma_o := p1.2, sigma_v := p2.2, nact_occ := t1.2.2.2,
            nact_vir := t2.2.2.2, active := p2.1, nact := p2.1.sum,
            occ_denominator := od, vir_denominator := vd }

/-- The function `find_active_space` of `cinoas/cinoas.py`: build the
tagged lists and denominators from the blocked occupation inputs, sort
them, and run the selection phase.  `nirrep` is the block count of the
occupied input (`active = [0 for _ in range(noocs_occ.nirrep())]`). -/
def find_active_space (noocs_occ noocs_vir : List (List ℚ)) (options : Options) :
    Except Err Results :=
  select (sortOccupied (buildOccupied noocs_occ noocs_vir))
    (sortVirtual (buildVirtual noocs_occ noocs_vir))
    (occDenominator noocs_occ noocs_vir) (virDenominator noocs_occ noocs_vir)
    noocs_occ.length options

/-! ### Characterisation of the selection loops -/

/-- The number of orbitals the threshold loop commits when started with
running numerator `num`: it walks the list, stopping (without committing)
at the first entry whose tentative fraction exceeds the threshold. -/
def selCount (f : ℚ → ℚ) (thr d : ℚ) : List Entry → ℚ → ℕ
  | [], _ => 0
  | e :: rest, num =>
    if (num + f e.2.1) / d > thr then 0
    else selCount f thr d rest (num + f e.2.1) + 1

/-- Cumulative numerator contributed by the first `k` entries of `l`. -/
def prefixNum (f : ℚ → ℚ) (l : List Entry) (k : ℕ) : ℚ :=
  ((l.take k).map (fun e => f e.2.1)).sum

/-- Bump the per-block counters once for every entry of `l`. -/
def addCounts (active : List ℕ) (l : List Entry) : List ℕ :=
  l.foldl (fun a e => incr a e.1) active

theorem addCounts_nil (active : List ℕ) : addCounts active [] = active := rfl

theorem addCounts_cons (active : List ℕ) (e : Entry) (l : List Entry) :
    addCounts active (e :: l) = addCounts (incr active e.1) l := rfl

/-- The threshold loop commits exactly the first `selCount` entries: it adds
their contributions to the numerator, bumps their blocks' counters, and adds
their number to the per-manifold count. -/
theorem threshLoop_eq (f : ℚ → ℚ) (thr d : ℚ) :
    ∀ (l : List Entry) (num : ℚ) (active : List ℕ) (nact : ℕ),
      threshLoop f thr d l num active nact =
        (num + prefixNum f l (selCount f thr d l num),
         addCounts active (l.take (selCount f thr d l num)),
         nact + selCount f thr d l num)
  | [], num, active, nact => by
    simp [threshLoop, selCount, prefixNum, addCounts]
  | e :: rest, num, active, nact => by
    rw [threshLoop, selCount]
    by_cases h : (num + f e.2.1) / d > thr
    · simp only [if_pos h]
      simp [prefixNum, addCounts]
    · simp only [if_neg h]
      rw [threshLoop_eq f thr d rest (num + f e.2.1) (incr active e.1) (nact + 1)]
      refine congrArg₂ _ ?_ (congrArg₂ _ ?_ ?_)
      · simp [prefixNum]; ring
      · simp [addCounts_cons]
      · omega

/-- The threshold loop never commits more entries than the list holds. -/
theorem selCount_le_length (f : ℚ → ℚ) (thr d : ℚ) :
    ∀ (l : List Entry) (num : ℚ), selCount f thr d l num ≤ l.length
  | [], _ => le_refl _
  | e :: rest, num => by
    rw [selCount]
    by_cases h : (num + f e.2.1) / d > thr
    · simp [if_pos h]
    · simp only [if_neg h, List.length_cons]
      exact Nat.succ_le_succ (selCount_le_length f thr d rest _)

/-- If the starting fraction is within the threshold, so is the fraction
after the threshold loop finishes: every committed step re-established the
bound. -/
theorem selCount_frac_le (f : ℚ → ℚ) (thr d : ℚ) :
    ∀ (l : List Entry) (num : ℚ), num / d ≤ thr →
      (num + prefixNum f l (selCount f thr d l num)) / d ≤ thr
  | [], num, h => by simpa [selCount, prefixNum] using h
  | e :: rest, num, h => by
    rw [selCount]
    by_cases hc : (num + f e.2.1) / d > thr
    · simpa [if_pos hc, prefixNum] using h
    · simp only [if_neg hc]
      have := selCount_frac_le f thr d rest (num + f e.2.1) (not_lt.mp hc)
      rw [prefixNum]
      simp only [List.take_succ_cons, List.map_cons, List.sum_cons]
      rw [show num + (f e.2.1 + (((rest.take (selCount f thr d rest (num + f e.2.1))).map
            (fun e => f e.2.1)).sum)) = (num + f e.2.1) + prefixNum f rest
            (selCount f thr d rest (num + f e.2.1)) by rw [prefixNum]; ring]
      exact this

/-- Prefix sums of non-negative contributions are monotone in the prefix
length. -/
theorem prefixNum_mono (f : ℚ → ℚ) :
    ∀ (l : List Entry), (∀ e ∈ l, 0 ≤ f e.2.1) → ∀ {j k : ℕ}, j ≤ k →
      prefixNum f l j ≤ prefixNum f l k
  | [], _, j, k, _ => by simp [prefixNum]
  | e :: rest, hf, j, k, hjk => by
    match j, k, hjk with
    | 0, k, _ =>
      rw [prefixNum, List.take_zero, List.map_nil, List.sum_nil, prefixNum]
      refine List.sum_nonneg ?_
      intro x hx
      obtain ⟨a, ha, rfl⟩ := List.mem_map.mp hx
      exact hf a (List.mem_of_mem_take ha)
    | j + 1, k + 1, hjk =>
      have hrest : ∀ e ∈ rest, 0 ≤ f e.2.1 := fun a ha => hf a (List.mem_cons_of_mem _ ha)
      have := prefixNum_mono f rest hrest (Nat.succ_le_succ_iff.mp hjk)
      simpa [prefixNum, List.take_succ_cons] using this

/-- Maximality of the committed count: with non-negative contributions and a
positive denominator, every prefix whose cumulative fraction stays within
the threshold is no longer than the committed prefix. -/
theorem selCount_maximal (f : ℚ → ℚ) (thr d : ℚ) (hd : 0 < d) :
    ∀ (l : List Entry), (∀ e ∈ l, 0 ≤ f e.2.1) → ∀ (num : ℚ) (k : ℕ), k ≤ l.length →
      (num + prefixNum f l k) / d ≤ thr → k ≤ selCount f thr d l num
  | [], _, num, k, hk, _ => by rw [selCount]; simpa using hk
  | e :: rest, hf, num, k, hk, hfrac => by
    match k with
    | 0 => exact Nat.zero_le _
    | k + 1 =>
      have hrest : ∀ a ∈ rest, 0 ≤ f a.2.1 := fun a ha => hf a (List.mem_cons_of_mem _ ha)
      rw [selCount]
      by_cases hc : (num + f e.2.1) / d > thr
      · exfalso
        have hone : prefixNum f (e :: rest) 1 = f e.2.1 := by simp [prefixNum]
        have h1 : num + f e.2.1 ≤ num + prefixNum f (e :: rest) (k + 1) := by
          have := prefixNum_mono f (e :: rest) hf (Nat.succ_le_succ (Nat.zero_le k))
          rw [hone] at this
          linarith
        have h2 : (num + f e.2.1) / d ≤ thr :=
          le_trans (by exact div_le_div_of_nonneg_right h1 hd.le) hfrac
        exact absurd h2 (not_le.mpr hc)
      · simp only [if_neg hc]
        refine Nat.succ_le_succ ?_
        refine selCount_maximal f thr d hd rest hrest (num + f e.2.1) k
          (Nat.succ_le_succ_iff.mp (by simpa using hk)) ?_
        have : (num + f e.2.1) + prefixNum f rest k = num + prefixNum f (e :: rest) (k + 1) := by
          simp [prefixNum, List.take_succ_cons]; ring
        rw [this]
        exact hfrac

/-- Raising the threshold never shrinks the committed count: the stopping
test is harder to trigger at every step, and the running numerator along
the committed prefix does not depend on the threshold. -/
theorem selCount_mono (f : ℚ → ℚ) (d : ℚ) {thr thr' : ℚ} (h : thr ≤ thr') :
    ∀ (l : List Entry) (num : ℚ), selCount f thr d l num ≤ selCount f thr' d l num
  | [], _ => le_refl _
  | e :: rest, num => by
    rw [selCount, selCount]
    by_cases hc : (num + f e.2.1) / d > thr
    · simp [if_pos hc]
    · have hc' : ¬ (num + f e.2.1) / d > thr' := fun hgt =>
        hc (lt_of_le_of_lt h hgt)
      simp only [if_neg hc, if_neg hc']
      exact Nat.succ_le_succ (selCount_mono f d h rest _)

/-- The fixed-count loop on an in-range count succeeds and commits exactly
the first `k` entries. -/
theorem fixedLoop_ok (f : ℚ → ℚ) :
    ∀ (k : ℕ) (l : List Entry) (num : ℚ) (active : List ℕ), k ≤ l.length →
      fixedLoop f k l num active =
        .ok (num + prefixNum f l k, addCounts active (l.take k))
  | 0, l, num, active, _ => by
    simp [fixedLoop, prefixNum, addCounts]
  | k + 1, [], num, active, hk => by simp at hk
  | k + 1, e :: rest, num, active, hk => by
    rw [fixedLoop, fixedLoop_ok f k rest (num + f e.2.1) (incr active e.1)
      (Nat.succ_le_succ_iff.mp (by simpa using hk))]
    refine congrArg _ (congrArg₂ _ ?_ ?_)
    · simp [prefixNum, List.take_succ_cons]; ring
    · simp [List.take_succ_cons, addCounts_cons]

/-- The fixed-count loop on an out-of-range count raises `IndexError`,
exactly as the Python subscript does. -/
theorem fixedLoop_error (f : ℚ → ℚ) :
    ∀ (k : ℕ) (l : List Entry) (num : ℚ) (active : List ℕ), l.length < k →
      fixedLoop f k l num active = .error .indexError
  | 0, l, _, _, hk => by simp at hk
  | k + 1, [], num, active, _ => rfl
  | k + 1, e :: rest, num, active, hk => by
    rw [fixedLoop]
    exact fixedLoop_error f k rest _ _ (by simpa using hk)

/-- Bumping a block counter never changes the number of blocks. -/
theorem incr_length (active : List ℕ) (h : ℕ) : (incr active h).length = active.length :=
  List.length_set ..

/-- Accumulating block counters over a list of entries never changes the
number of blocks. -/
theorem addCounts_length (l : List Entry) :
    ∀ (active : List ℕ), (addCounts active l).length = active.length := by
  induction l with
  | nil => intro active; rfl
  | cons e rest ih =>
    intro active
    rw [addCounts_cons, ih, incr_length]

/-- The occupied-manifold contribution `1 - occus`. -/
def contribOcc : ℚ → ℚ := fun v => 1 - v

/-- The virtual-manifold contribution `occus`. -/
def contribVir : ℚ → ℚ := fun v => v

/-- The number of occupied orbitals committed by the `threshold_occ` loop. -/
def nSelOcc (occL : List Entry) (tO od : ℚ) : ℕ := selCount contribOcc tO od occL 0

/-- The number of virtual orbitals committed by the `threshold_vir` loop. -/
def nSelVir (virL : List Entry) (tV vd : ℚ) : ℕ := selCount contribVir tV vd virL 0

/-- Closed form of the selection phase when exactly the two threshold
options are supplied. -/
theorem select_thresholds (occL virL : List Entry) (od vd : ℚ) (nir : ℕ) (tO tV : ℚ) :
    select occL virL od vd nir { threshold_occ := some tO, threshold_vir := some tV } =
      .ok { sigma_o := some (prefixNum contribOcc occL (nSelOcc occL tO od) / od),
            sigma_v := some (prefixNum contribVir virL (nSelVir virL tV vd) / vd),
            nact_occ := some (nSelOcc occL tO od),
            nact_vir := some (nSelVir virL tV vd),
            active := addCounts (addCounts (List.replicate nir 0)
              (occL.take (nSelOcc occL tO od))) (virL.take (nSelVir virL tV vd)),
            nact := (addCounts (addCounts (List.replicate nir 0)
              (occL.take (nSelOcc occL tO od))) (virL.take (nSelVir virL tV vd))).sum,
            occ_denominator := od, vir_denominator := vd } := by
  simp only [select, threshStage, fixedStage, threshLoop_eq, zero_add, nSelOcc, nSelVir]
  rfl

/-- Closed form of the selection phase when only `num_act_occ` is supplied
and the requested count is in range. -/
theorem select_fixed_occ (occL virL : List Entry) (od vd : ℚ) (nir : ℕ) (k : ℕ)
    (hk : k ≤ occL.length) :
    select occL virL od vd nir { num_act_occ := some k } =
      .ok { sigma_o := some (prefixNum contribOcc occL k / od),
            sigma_v := none, nact_occ := none, nact_vir := none,
            active := addCounts (List.replicate nir 0) (occL.take k),
            nact := (addCounts (List.replicate nir 0) (occL.take k)).sum,
            occ_denominator := od, vir_denominator := vd } := by
  simp only [select, threshStage, fixedStage,
    fixedLoop_ok (fun v => 1 - v) k occL 0 (List.replicate nir 0) hk, zero_add]
  rfl

/-- Closed form of the selection phase when only `num_act_vir` is supplied
and the requested count is in range. -/
theorem select_fixed_vir (occL virL : List Entry) (od vd : ℚ) (nir : ℕ) (k : ℕ)
    (hk : k ≤ virL.length) :
    select occL virL od vd nir { num_act_vir := some k } =
      .ok { sigma_o := none,
            sigma_v := some (prefixNum contribVir virL k / vd),
            nact_occ := none, nact_vir := none,
            active := addCounts (List.replicate nir 0) (virL.take k),
            nact := (addCounts (List.replicate nir 0) (virL.take k)).sum,
            occ_denominator := od, vir_denominator := vd } := by
  simp only [select, threshStage, fixedStage,
    fixedLoop_ok (fun v => v) k virL 0 (List.replicate nir 0) hk, zero_add]
  rfl

/-- Whenever `num_act_occ` exceeds the occupied list length, the selection
phase raises `IndexError`, whatever the other options are. -/
theorem select_error_occ (occL virL : List Entry) (od vd : ℚ) (nir : ℕ) (opts : Options)
    (k : ℕ) (hk : opts.num_act_occ = some k) (h : occL.length < k) :
    select occL virL od vd nir opts = .error .indexError := by
  simp only [select, threshStage, fixedStage, hk, fixedLoop_error _ _ _ _ _ h]

/-- Whenever `num_act_vir` exceeds the virtual list length, the selection
phase raises `IndexError`, whatever the other options are. -/
theorem select_error_vir (occL virL : List Entry) (od vd : ℚ) (nir : ℕ) (opts : Options)
    (k : ℕ) (hk : opts.num_act_vir = some k) (h : virL.length < k) :
    select occL virL od vd nir opts = .error .indexError := by
  rcases hocc : opts.num_act_occ with _ | j
  · simp only [select, threshStage, fixedStage, hk, hocc, fixedLoop_error _ _ _ _ _ h]
  · rcases le_or_lt j occL.length with hj | hj
    · simp only [select, threshStage, fixedStage, hk, hocc, fixedLoop_ok _ _ _ _ _ hj,
        fixedLoop_error _ _ _ _ _ h]
    · exact select_error_occ occL virL od vd nir opts j hocc hj

instance : IsTotal Entry occLE := ⟨fun a b => le_total a.2.1 b.2.1⟩

instance : IsTrans Entry occLE := ⟨fun _ _ _ hab hbc => le_trans hab hbc⟩

instance : IsTotal Entry virGE := ⟨fun a b => le_total b.2.1 a.2.1⟩

instance : IsTrans Entry virGE := ⟨fun _ _ _ hab hbc => le_trans hbc hab⟩

/-- Bumping block `0` of a non-empty counter list. -/
theorem incr_cons_zero (a : ℕ) (t : List ℕ) : incr (a :: t) 0 = (a + 1) :: t := by
  simp [incr]

/-- Bumping a later block skips the head counter. -/
theorem incr_cons_succ (a : ℕ) (t : List ℕ) (h : ℕ) :
    incr (a :: t) (h + 1) = a :: incr t h := by
  simp [incr, List.getD_cons_succ]

/-- Reading a counter after a bump: the bumped block grew by one, the
others are unchanged (for an in-range block index). -/
theorem incr_getD : ∀ (active : List ℕ) (h j : ℕ), h < active.length →
    (incr active h).getD j 0 = active.getD j 0 + (if h = j then 1 else 0)
  | [], _, _, hh => by simp at hh
  | a :: t, 0, 0, _ => by simp [incr_cons_zero]
  | a :: t, 0, j + 1, _ => by simp [incr_cons_zero]
  | a :: t, h + 1, 0, _ => by simp [incr_cons_succ]
  | a :: t, h + 1, j + 1, hh => by
    have ih := incr_getD t h j (by simpa using hh)
    simp only [incr_cons_succ, List.getD_cons_succ, ih]
    by_cases hj : h = j <;> simp [hj]

/-- Reading a counter after accumulating a list of entries: the block's
counter grew by the number of entries tagged with that block. -/
theorem addCounts_getD : ∀ (l : List Entry) (active : List ℕ) (j : ℕ),
    (∀ e ∈ l, e.1 < active.length) →
    (addCounts active l).getD j 0 = active.getD j 0 + l.countP (fun e => e.1 == j)
  | [], active, j, _ => by simp [addCounts_nil]
  | e :: rest, active, j, hl => by
    have he : e.1 < active.length := hl e (List.mem_cons_self e rest)
    have hrest : ∀ a ∈ rest, a.1 < (incr active e.1).length := by
      intro a ha
      rw [incr_length]
      exact hl a (List.mem_cons_of_mem _ ha)
    rw [addCounts_cons, addCounts_getD rest (incr active e.1) j hrest,
      incr_getD active e.1 j he, List.countP_cons]
    rcases eq_or_ne e.1 j with hj | hj
    · simp [hj]
      omega
    · simp [hj]

/-- Every entry tagged by the block loop carries a block index in
`[sym, sym + number of blocks)`. -/
theorem tagFrom_fst_bounds : ∀ (bs : List (List ℚ × List ℚ)) (sym : ℕ) (e : Entry),
    (e ∈ (tagFrom sym bs).1 ∨ e ∈ (tagFrom sym bs).2.1) →
    sym ≤ e.1 ∧ e.1 < sym + bs.length
  | [], sym, e, he => by simp [tagFrom] at he
  | (ob, vb) :: rest, sym, e, he => by
    have hblock : ∀ vs : List ℚ, e ∈ tagBlock sym vs → e.1 = sym := by
      intro vs hv
      obtain ⟨p, _, rfl⟩ := List.mem_map.mp hv
      rfl
    rcases he with he | he <;>
      rw [tagFrom] at he <;>
      rcases List.mem_append.mp he with h | h
    · have := hblock ob h; simp only [List.length_cons]; omega
    · have := tagFrom_fst_bounds rest (sym + 1) e (Or.inl h)
      simp only [List.length_cons]; omega
    · have := hblock vb h; simp only [List.length_cons]; omega
    · have := tagFrom_fst_bounds rest (sym + 1) e (Or.inr h)
      simp only [List.length_cons]; omega

/-- Sorting preserves length. -/
theorem sortOccupied_length (l : List Entry) : (sortOccupied l).length = l.length :=
  (List.perm_insertionSort occLE l).length_eq

/-- Sorting preserves length. -/
theorem sortVirtual_length (l : List Entry) : (sortVirtual l).length = l.length :=
  (List.perm_insertionSort virGE l).length_eq

/-- Sorting preserves membership. -/
theorem sortOccupied_mem (l : List Entry) (e : Entry) :
    e ∈ sortOccupied l ↔ e ∈ l :=
  (List.perm_insertionSort occLE l).mem_iff

/-- Sorting preserves membership. -/
theorem sortVirtual_mem (l : List Entry) (e : Entry) :
    e ∈ sortVirtual l ↔ e ∈ l :=
  (List.perm_insertionSort virGE l).mem_iff

/-- C5.  After the sort step, the occupied sequence is non-decreasing and
the virtual sequence is non-increasing by occupation value, for every
input. -/
theorem sorted_spectra (occB virB : List (List ℚ)) :
    List.Sorted (· ≤ ·) ((sortOccupied (buildOccupied occB virB)).map (fun e => e.2.1)) ∧
    List.Sorted (· ≥ ·) ((sortVirtual (buildVirtual occB virB)).map (fun e => e.2.1)) := by
  constructor
  · exact (List.pairwise_map).mpr (List.sorted_insertionSort occLE (buildOccupied occB virB))
  · exact (List.pairwise_map).mpr (List.sorted_insertionSort virGE (buildVirtual occB virB))

/-- C10.  The stopping comparison is strict: an orbital whose tentative
cumulative fraction equals the threshold exactly is committed (its block's
counter and the manifold count are bumped) and iteration continues. -/
theorem threshold_test_is_strict (f : ℚ → ℚ) (thr d num : ℚ) (e : Entry)
    (rest : List Entry) (active : List ℕ) (nact : ℕ)
    (heq : (num + f e.2.1) / d = thr) :
    threshLoop f thr d (e :: rest) num active nact =
      threshLoop f thr d rest (num + f e.2.1) (incr active e.1) (nact + 1) := by
  rw [threshLoop, if_neg (by rw [heq]; exact lt_irrefl thr)]

/-- Witness for C10 at a concrete input: occupation `1/2`, contribution
`1 - occus`, denominator `1`, threshold exactly `1/2`. -/
theorem threshold_test_is_strict_witness :
    threshLoop (fun v => 1 - v) (1/2) 1 [((0 : ℕ), (1 : ℚ)/2, (0 : ℕ))] 0 [0] 0 =
      threshLoop (fun v => 1 - v) (1/2) 1 [] (0 + (1 - 1/2)) (incr [0] 0) (0 + 1) :=
  threshold_test_is_strict (fun v => 1 - v) (1/2) 1 0 ((0 : ℕ), (1 : ℚ)/2, (0 : ℕ))
    [] [0] 0 (by norm_num)

/-- A freshly initialised counter list reads zero everywhere. -/
theorem getD_replicate_zero : ∀ (n j : ℕ), (List.replicate n (0 : ℕ)).getD j 0 = 0
  | 0, _ => rfl
  | n + 1, 0 => rfl
  | n + 1, j + 1 => by
    rw [List.replicate_succ, List.getD_cons_succ]
    exact getD_replicate_zero n j

/-- Lengths of the tagged lists: one entry per orbital of each zipped
block. -/
theorem tagFrom_length : ∀ (bs : List (List ℚ × List ℚ)) (sym : ℕ),
    (tagFrom sym bs).1.length = (bs.map (fun p => p.1.length)).sum ∧
    (tagFrom sym bs).2.1.length = (bs.map (fun p => p.2.length)).sum
  | [], _ => ⟨rfl, rfl⟩
  | (ob, vb) :: rest, sym => by
    have ih := tagFrom_length rest (sym + 1)
    constructor <;>
      simp [tagFrom, tagBlock, ih.1, ih.2]

/-- With equally many occupied and virtual blocks (as any one calculation
supplies), the flattened occupied list has one entry per occupied orbital. -/
theorem buildOccupied_length (occB virB : List (List ℚ)) (h : occB.length = virB.length) :
    (buildOccupied occB virB).length = (occB.map List.length).sum := by
  rw [buildOccupied, (tagFrom_length (occB.zip virB) 0).1]
  rw [show (occB.zip virB).map (fun p => p.1.length) =
    ((occB.zip virB).map Prod.fst).map List.length from (List.map_map ..).symm]
  rw [List.map_fst_zip occB virB (le_of_eq h)]

/-- With equally many blocks, the flattened virtual list has one entry per
virtual orbital. -/
theorem buildVirtual_length (occB virB : List (List ℚ)) (h : occB.length = virB.length) :
    (buildVirtual occB virB).length = (virB.map List.length).sum := by
  rw [buildVirtual, (tagFrom_length (occB.zip virB) 0).2]
  rw [show (occB.zip virB).map (fun p => p.2.length) =
    ((occB.zip virB).map Prod.snd).map List.length from (List.map_map ..).symm]
  rw [List.map_snd_zip occB virB (ge_of_eq h)]

/-- Every tagged entry's block index is a valid index of the `active`
counter list (whose length is the occupied input's block count). -/
theorem build_fst_lt (occB virB : List (List ℚ)) (e : Entry)
    (h : e ∈ buildOccupied occB virB ∨ e ∈ buildVirtual occB virB) :
    e.1 < occB.length := by
  have hb := tagFrom_fst_bounds (occB.zip virB) 0 e h
  have hz : (occB.zip virB).length ≤ occB.length := by
    rw [List.length_zip]; exact min_le_left _ _
  omega

/-- C2.  In fixed-count mode with an in-range count, `find_active_space`
takes exactly the first `k` entries of the respective sorted sequence with
no threshold check, bumps each taken entry's block counter (so the
per-block counts equal the tag counts among the top-k sorted entries),
reports the resulting cumulative fraction, and never writes the
per-manifold count keys. -/
theorem fixed_count_exact (occB virB : List (List ℚ)) (ko kv : ℕ)
    (hko : ko ≤ (buildOccupied occB virB).length)
    (hkv : kv ≤ (buildVirtual occB virB).length) :
    (find_active_space occB virB { num_act_occ := some ko } =
      .ok { sigma_o := some (prefixNum contribOcc (sortOccupied (buildOccupied occB virB)) ko /
              occDenominator occB virB),
            sigma_v := none, nact_occ := none, nact_vir := none,
            active := addCounts (List.replicate occB.length 0)
              ((sortOccupied (buildOccupied occB virB)).take ko),
            nact := (addCounts (List.replicate occB.length 0)
              ((sortOccupied (buildOccupied occB virB)).take ko)).sum,
            occ_denominator := occDenominator occB virB,
            vir_denominator := virDenominator occB virB } ∧
      ∀ h, h < occB.length →
        (addCounts (List.replicate occB.length 0)
          ((sortOccupied (buildOccupied occB virB)).take ko)).getD h 0 =
        ((sortOccupied (buildOccupied occB virB)).take ko).countP (fun e => e.1 == h)) ∧
    (find_active_space occB virB { num_act_vir := some kv } =
      .ok { sigma_o := none,
            sigma_v := some (prefixNum contribVir (sortVirtual (buildVirtual occB virB)) kv /
              virDenominator occB virB),
            nact_occ := none, nact_vir := none,
            active := addCounts (List.replicate occB.length 0)
              ((sortVirtual (buildVirtual occB virB)).take kv),
            nact := (addCounts (List.replicate occB.length 0)
              ((sortVirtual (buildVirtual occB virB)).take kv)).sum,
            occ_denominator := occDenominator occB virB,
            vir_denominator := virDenominator occB virB } ∧
      ∀ h, h < occB.length →
        (addCounts (List.replicate occB.length 0)
          ((sortVirtual (buildVirtual occB virB)).take kv)).getD h 0 =
        ((sortVirtual (buildVirtual occB virB)).take kv).countP (fun e => e.1 == h)) := by
  have hcount : ∀ (l : List Entry),
      (∀ e ∈ l, e.1 < occB.length) →
      ∀ h, h < occB.length →
        (addCounts (List.replicate occB.length 0) l).getD h 0 =
          l.countP (fun e => e.1 == h) := by
    intro l hl h _
    rw [addCounts_getD l _ h (by simpa using hl), getD_replicate_zero, zero_add]
  refine ⟨⟨?_, ?_⟩, ⟨?_, ?_⟩⟩
  · rw [find_active_space]
    exact select_fixed_occ _ _ _ _ _ ko (by rwa [sortOccupied_length])
  · refine hcount _ ?_
    intro e he
    exact build_fst_lt occB virB e
      (Or.inl ((sortOccupied_mem _ e).mp (List.mem_of_mem_take he)))
  · rw [find_active_space]
    exact select_fixed_vir _ _ _ _ _ kv (by rwa [sortVirtual_length])
  · refine hcount _ ?_
    intro e he
    exact build_fst_lt occB virB e
      (Or.inr ((sortVirtual_mem _ e).mp (List.mem_of_mem_take he)))

/-- Witness for C2: one occupied block `[1/2, 1/4]` and one virtual block
`[1/3]`, requesting one orbital from each manifold in separate calls. -/
theorem fixed_count_exact_witness :
    find_active_space [[1/2, 1/4]] [[1/3]] { num_act_occ := some 1 } =
      .ok { sigma_o := some (3/5), sigma_v := none, nact_occ := none, nact_vir := none,
            active := [1], nact := 1, occ_denominator := 5/4, vir_denominator := 1/3 } ∧
    find_active_space [[1/2, 1/4]] [[1/3]] { num_act_vir := some 1 } =
      .ok { sigma_o := none, sigma_v := some 1, nact_occ := none, nact_vir := none,
            active := [1], nact := 1, occ_denominator := 5/4, vir_denominator := 1/3 } := by
  have h := fixed_count_exact [[1/2, 1/4]] [[1/3]] 1 1 (by decide) (by decide)
  refine ⟨h.1.1.trans ?_, h.2.1.trans ?_⟩ <;>
    norm_num [prefixNum, contribOcc, contribVir, sortOccupied, sortVirtual,
      buildOccupied, buildVirtual, occDenominator, virDenominator, tagFrom, tagBlock,
      List.insertionSort, List.orderedInsert, addCounts, incr, List.take, List.countP,
      List.enum, List.enumFrom, List.getD, occLE, virGE, List.foldl]

/-- C9.  A fixed count exceeding the total orbital count of its manifold
makes `find_active_space` fail with Python's out-of-range `IndexError`
instead of returning a result, whatever the other options are. -/
theorem fixed_count_out_of_range (occB virB : List (List ℚ)) (opts : Options) (k : ℕ)
    (hlen : occB.length = virB.length)
    (h : (opts.num_act_occ = some k ∧ (occB.map List.length).sum < k) ∨
         (opts.num_act_vir = some k ∧ (virB.map List.length).sum < k)) :
    find_active_space occB virB opts = .error .indexError := by
  rcases h with ⟨hk, hgt⟩ | ⟨hk, hgt⟩
  · rw [find_active_space]
    refine select_error_occ _ _ _ _ _ opts k hk ?_
    rwa [sortOccupied_length, buildOccupied_length occB virB hlen]
  · rw [find_active_space]
    refine select_error_vir _ _ _ _ _ opts k hk ?_
    rwa [sortVirtual_length, buildVirtual_length occB virB hlen]

/-- Witness for C9: one occupied and one virtual orbital, requesting two
virtual orbitals. -/
theorem fixed_count_out_of_range_witness :
    find_active_space [[1/2]] [[1/2]] { num_act_vir := some 2 } = .error .indexError :=
  fixed_count_out_of_range [[1/2]] [[1/2]] { num_act_vir := some 2 } 2 rfl
    (Or.inr ⟨rfl, by decide⟩)

/-- C3 (code bug).  On an input whose occupied denominator is zero (all
occupied occupations sum to the occupied orbital count), a threshold-mode
call does not fail: the source divides numpy floats, `0.0/0.0` silently
yields `nan`, the comparison `nan > threshold` is `False`, every orbital is
committed, and a normal result is returned (`sigma_o` is `nan` there; the
total-division model renders it `0`). -/
theorem zero_denominator_returns_ok :
    occDenominator [[1, 1]] [[1/2]] = 0 ∧
    find_active_space [[1, 1]] [[1/2]] { threshold_occ := some (1/2) } =
      .ok { sigma_o := some 0, sigma_v := none, nact_occ := some 2, nact_vir := none,
            active := [2], nact := 2, occ_denominator := 0, vir_denominator := 1/2 } := by
  constructor <;>
    norm_num [find_active_space, select, threshStage, fixedStage, buildOccupied, buildVirtual, occDenominator,
      virDenominator, tagFrom, tagBlock, sortOccupied, sortVirtual, List.insertionSort,
      List.orderedInsert, threshLoop, fixedLoop, incr, occLE, virGE, List.take,
      List.enum, List.enumFrom, List.getD]

/-- C4 (code bug).  Supplying a threshold and a fixed count for the same
manifold is not rejected: both branches run and accumulate into the same
counters.  Here the two occupied orbitals are first both committed by the
threshold branch, then the fixed-count branch re-adds the top orbital:
`active = [3]` for a block holding only two orbitals, and the reported
`sigma_o` (`5/3`) includes the double-counted contribution. -/
theorem conflicting_criteria_not_rejected :
    find_active_space [[1/2, 3/4]] [[]]
        { threshold_occ := some 1, num_act_occ := some 1 } =
      .ok { sigma_o := some (5/3), sigma_v := none, nact_occ := some 2, nact_vir := none,
            active := [3], nact := 3, occ_denominator := 3/4, vir_denominator := 0 } := by
  norm_num [find_active_space, select, threshStage, fixedStage, buildOccupied, buildVirtual, occDenominator,
    virDenominator, tagFrom, tagBlock, sortOccupied, sortVirtual, List.insertionSort,
    List.orderedInsert, threshLoop, fixedLoop, incr, occLE, virGE, List.take,
    List.enum, List.enumFrom, List.getD]

/-- C1 counterexample.  With an occupation above 1 the contributions
`1 - occus` are not all non-negative, the cumulative numerator is not
monotone, and the greedy stop is not the longest admissible prefix: on the
spectrum `[1/2, 9/10, 3/2]` with threshold 1, the loop stops before the
first orbital (tentative fraction 5 > 1) and selects zero orbitals, yet the
full prefix of all three orbitals has cumulative fraction 1 ≤ 1. -/
theorem longest_prefix_cex :
    find_active_space [[1/2, 9/10, 3/2]] [[]] { threshold_occ := some 1 } =
      .ok { sigma_o := some 0, sigma_v := none, nact_occ := some 0, nact_vir := none,
            active := [0], nact := 0, occ_denominator := 1/10, vir_denominator := 0 } ∧
    (sortOccupied (buildOccupied [[1/2, 9/10, 3/2]] [[]])).length = 3 ∧
    prefixNum contribOcc (sortOccupied (buildOccupied [[1/2, 9/10, 3/2]] [[]])) 3 /
      occDenominator [[1/2, 9/10, 3/2]] [[]] ≤ 1 := by
  refine ⟨?_, ?_, ?_⟩ <;>
    norm_num [find_active_space, select, threshStage, fixedStage, buildOccupied, buildVirtual, occDenominator,
      virDenominator, tagFrom, tagBlock, sortOccupied, sortVirtual, List.insertionSort,
      List.orderedInsert, threshLoop, fixedLoop, incr, occLE, virGE, List.take,
      List.enum, List.enumFrom, List.getD, prefixNum, contribOcc]

/-- C1 (amended).  Provided every occupied occupation is at most 1, every
virtual occupation is non-negative (so the per-orbital contributions are
non-negative), both denominators are positive and the thresholds are
non-negative, threshold mode selects exactly the longest prefix of each
sorted sequence whose cumulative fraction does not exceed the threshold,
committing each selected orbital to its block's counter and the
per-manifold count. -/
theorem threshold_longest_prefix (occB virB : List (List ℚ)) (tO tV : ℚ)
    (hO1 : ∀ e ∈ buildOccupied occB virB, e.2.1 ≤ 1)
    (hV0 : ∀ e ∈ buildVirtual occB virB, 0 ≤ e.2.1)
    (hdO : 0 < occDenominator occB virB) (hdV : 0 < virDenominator occB virB)
    (htO : 0 ≤ tO) (htV : 0 ≤ tV) :
    ∃ r nO nV,
      find_active_space occB virB { threshold_occ := some tO, threshold_vir := some tV } =
        .ok r ∧
      r.nact_occ = some nO ∧ r.nact_vir = some nV ∧
      r.active = addCounts (addCounts (List.replicate occB.length 0)
        ((sortOccupied (buildOccupied occB virB)).take nO))
        ((sortVirtual (buildVirtual occB virB)).take nV) ∧
      r.sigma_o = some (prefixNum contribOcc (sortOccupied (buildOccupied occB virB)) nO /
        occDenominator occB virB) ∧
      r.sigma_v = some (prefixNum contribVir (sortVirtual (buildVirtual occB virB)) nV /
        virDenominator occB virB) ∧
      nO ≤ (sortOccupied (buildOccupied occB virB)).length ∧
      prefixNum contribOcc (sortOccupied (buildOccupied occB virB)) nO /
        occDenominator occB virB ≤ tO ∧
      (∀ k ≤ (sortOccupied (buildOccupied occB virB)).length,
        prefixNum contribOcc (sortOccupied (buildOccupied occB virB)) k /
          occDenominator occB virB ≤ tO → k ≤ nO) ∧
      nV ≤ (sortVirtual (buildVirtual occB virB)).length ∧
      prefixNum contribVir (sortVirtual (buildVirtual occB virB)) nV /
        virDenominator occB virB ≤ tV ∧
      (∀ k ≤ (sortVirtual (buildVirtual occB virB)).length,
        prefixNum contribVir (sortVirtual (buildVirtual occB virB)) k /
          virDenominator occB virB ≤ tV → k ≤ nV) := by
  have hfind := select_thresholds (sortOccupied (buildOccupied occB virB))
    (sortVirtual (buildVirtual occB virB)) (occDenominator occB virB)
    (virDenominator occB virB) occB.length tO tV
  have hcO : ∀ e ∈ sortOccupied (buildOccupied occB virB), 0 ≤ contribOcc e.2.1 := by
    intro e he
    have := hO1 e ((sortOccupied_mem _ e).mp he)
    simp only [contribOcc]
    linarith
  have hcV : ∀ e ∈ sortVirtual (buildVirtual occB virB), 0 ≤ contribVir e.2.1 := by
    intro e he
    exact hV0 e ((sortVirtual_mem _ e).mp he)
  refine ⟨_, nSelOcc (sortOccupied (buildOccupied occB virB)) tO (occDenominator occB virB),
    nSelVir (sortVirtual (buildVirtual occB virB)) tV (virDenominator occB virB),
    by rw [find_active_space]; exact hfind, rfl, rfl, rfl, rfl, rfl, ?_, ?_, ?_, ?_, ?_, ?_⟩
  · exact selCount_le_length contribOcc tO (occDenominator occB virB) _ 0
  · have := selCount_frac_le contribOcc tO (occDenominator occB virB)
      (sortOccupied (buildOccupied occB virB)) 0 (by rw [zero_div]; exact htO)
    simpa [nSelOcc] using this
  · intro k hk hfrac
    refine selCount_maximal contribOcc tO (occDenominator occB virB) hdO _ hcO 0 k hk ?_
    rwa [zero_add]
  · exact selCount_le_length contribVir tV (virDenominator occB virB) _ 0
  · have := selCount_frac_le contribVir tV (virDenominator occB virB)
      (sortVirtual (buildVirtual occB virB)) 0 (by rw [zero_div]; exact htV)
    simpa [nSelVir] using this
  · intro k hk hfrac
    refine selCount_maximal contribVir tV (virDenominator occB virB) hdV _ hcV 0 k hk ?_
    rwa [zero_add]

/-- Witness for the amended C1: one block, occupation 1/2 in each
manifold, thresholds 1. -/
theorem threshold_longest_prefix_witness :
    ∃ r nO nV,
      find_active_space [[1/2]] [[1/2]] { threshold_occ := some 1, threshold_vir := some 1 } =
        .ok r ∧
      r.nact_occ = some nO ∧ r.nact_vir = some nV ∧
      r.active = addCounts (addCounts (List.replicate ([[(1:ℚ)/2]] : List (List ℚ)).length 0)
        ((sortOccupied (buildOccupied [[1/2]] [[1/2]])).take nO))
        ((sortVirtual (buildVirtual [[1/2]] [[1/2]])).take nV) ∧
      r.sigma_o = some (prefixNum contribOcc (sortOccupied (buildOccupied [[1/2]] [[1/2]])) nO /
        occDenominator [[1/2]] [[1/2]]) ∧
      r.sigma_v = some (prefixNum contribVir (sortVirtual (buildVirtual [[1/2]] [[1/2]])) nV /
        virDenominator [[1/2]] [[1/2]]) ∧
      nO ≤ (sortOccupied (buildOccupied [[1/2]] [[1/2]])).length ∧
      prefixNum contribOcc (sortOccupied (buildOccupied [[1/2]] [[1/2]])) nO /
        occDenominator [[1/2]] [[1/2]] ≤ 1 ∧
      (∀ k ≤ (sortOccupied (buildOccupied [[1/2]] [[1/2]])).length,
        prefixNum contribOcc (sortOccupied (buildOccupied [[1/2]] [[1/2]])) k /
          occDenominator [[1/2]] [[1/2]] ≤ 1 → k ≤ nO) ∧
      nV ≤ (sortVirtual (buildVirtual [[1/2]] [[1/2]])).length ∧
      prefixNum contribVir (sortVirtual (buildVirtual [[1/2]] [[1/2]])) nV /
        virDenominator [[1/2]] [[1/2]] ≤ 1 ∧
      (∀ k ≤ (sortVirtual (buildVirtual [[1/2]] [[1/2]])).length,
        prefixNum contribVir (sortVirtual (buildVirtual [[1/2]] [[1/2]])) k /
          virDenominator [[1/2]] [[1/2]] ≤ 1 → k ≤ nV) :=
  threshold_longest_prefix [[1/2]] [[1/2]] 1 1
    (by norm_num [buildOccupied, tagFrom, tagBlock, List.enum, List.enumFrom])
    (by norm_num [buildVirtual, tagFrom, tagBlock, List.enum, List.enumFrom])
    (by norm_num [occDenominator, tagFrom, tagBlock])
    (by norm_num [virDenominator, tagFrom, tagBlock])
    (by norm_num) (by norm_num)

/-- C6.  For a fixed spectrum with nonzero denominators and admissible
thresholds, raising `threshold_occ` (resp. `threshold_vir`) never decreases
the per-manifold active count, and the achieved cumulative fractions never
exceed the requested thresholds. -/
theorem threshold_monotone (occB virB : List (List ℚ)) (tO tO' tV tV' : ℚ)
    (hO : tO ≤ tO') (hV : tV ≤ tV')
    (_hdO : occDenominator occB virB ≠ 0) (_hdV : virDenominator occB virB ≠ 0)
    (htO : 0 ≤ tO) (htV : 0 ≤ tV) :
    ∃ r r',
      find_active_space occB virB { threshold_occ := some tO, threshold_vir := some tV } =
        .ok r ∧
      find_active_space occB virB { threshold_occ := some tO', threshold_vir := some tV' } =
        .ok r' ∧
      r.nact_occ.getD 0 ≤ r'.nact_occ.getD 0 ∧
      r.nact_vir.getD 0 ≤ r'.nact_vir.getD 0 ∧
      r.sigma_o.getD 0 ≤ tO ∧ r.sigma_v.getD 0 ≤ tV := by
  refine ⟨_, _,
    by rw [find_active_space]; exact select_thresholds _ _ _ _ _ tO tV,
    by rw [find_active_space]; exact select_thresholds _ _ _ _ _ tO' tV', ?_, ?_, ?_, ?_⟩
  · exact selCount_mono contribOcc (occDenominator occB virB) hO _ 0
  · exact selCount_mono contribVir (virDenominator occB virB) hV _ 0
  · have := selCount_frac_le contribOcc tO (occDenominator occB virB)
      (sortOccupied (buildOccupied occB virB)) 0 (by rw [zero_div]; exact htO)
    simpa [nSelOcc] using this
  · have := selCount_frac_le contribVir tV (virDenominator occB virB)
      (sortVirtual (buildVirtual occB virB)) 0 (by rw [zero_div]; exact htV)
    simpa [nSelVir] using this

/-- Witness for C6: occupation 1/2 in each manifold, thresholds raised from
1/2 to 1. -/
theorem threshold_monotone_witness :
    ∃ r r',
      find_active_space [[1/2]] [[1/2]]
          { threshold_occ := some (1/2), threshold_vir := some (1/2) } = .ok r ∧
      find_active_space [[1/2]] [[1/2]]
          { threshold_occ := some 1, threshold_vir := some 1 } = .ok r' ∧
      r.nact_occ.getD 0 ≤ r'.nact_occ.getD 0 ∧
      r.nact_vir.getD 0 ≤ r'.nact_vir.getD 0 ∧
      r.sigma_o.getD 0 ≤ 1/2 ∧ r.sigma_v.getD 0 ≤ 1/2 :=
  threshold_monotone [[1/2]] [[1/2]] (1/2) 1 (1/2) 1 (by norm_num) (by norm_num)
    (by norm_num [occDenominator, tagFrom, tagBlock])
    (by norm_num [virDenominator, tagFrom, tagBlock])
    (by norm_num) (by norm_num)

/-- A successful fixed-count loop never changes the number of blocks. -/
theorem fixedLoop_ok_length (f : ℚ → ℚ) :
    ∀ (k : ℕ) (l : List Entry) (num : ℚ) (active : List ℕ) (p : ℚ × List ℕ),
      fixedLoop f k l num active = .ok p → p.2.length = active.length
  | 0, _, num, active, p, h => by
    rw [fixedLoop] at h
    cases h
    rfl
  | _ + 1, [], _, _, _, h => by
    rw [fixedLoop] at h
    cases h
  | k + 1, e :: rest, num, active, p, h => by
    rw [fixedLoop] at h
    rw [fixedLoop_ok_length f k rest _ _ p h, incr_length]

/-- A threshold stage preserves the number of blocks and writes its two
result keys exactly when its option key is present. -/
theorem threshStage_inv (topt : Option ℚ) (f : ℚ → ℚ) (d : ℚ) (l : List Entry)
    (act : List ℕ) :
    (threshStage topt f d l act).2.1.length = act.length ∧
    (threshStage topt f d l act).2.2.1.isSome = topt.isSome ∧
    (threshStage topt f d l act).2.2.2.isSome = topt.isSome := by
  cases topt with
  | none => simp [threshStage]
  | some thr => simp [threshStage, threshLoop_eq, addCounts_length]

/-- A successful fixed stage preserves the number of blocks and leaves the
fraction key written exactly when it came in written or the fixed-count
key is present. -/
theorem fixedStage_inv (nopt : Option ℕ) (f : ℚ → ℚ) (d : ℚ) (l : List Entry)
    (num : ℚ) (act : List ℕ) (sig : Option ℚ) (p : List ℕ × Option ℚ)
    (h : fixedStage nopt f d l num act sig = .ok p) :
    p.1.length = act.length ∧ p.2.isSome = (sig.isSome || nopt.isSome) := by
  cases nopt with
  | none =>
    rw [fixedStage] at h
    cases h
    simp
  | some k =>
    rw [fixedStage] at h
    rcases hfl : fixedLoop f k l num act with e | q
    · rw [hfl] at h; cases h
    · rw [hfl] at h
      cases h
      simp [fixedLoop_ok_length f k l num act q hfl]

/-- Field structure of every successful selection: the per-block list keeps
one slot per irrep, the total is its sum, the denominators are returned,
the fraction keys are present for exactly the manifolds given a criterion,
and the per-manifold count keys for exactly the manifolds given a
threshold. -/
theorem select_ok_fields (occL virL : List Entry) (od vd : ℚ) (nir : ℕ)
    (opts : Options) (r : Results) (h : select occL virL od vd nir opts = .ok r) :
    r.active.length = nir ∧ r.nact = r.active.sum ∧
    r.occ_denominator = od ∧ r.vir_denominator = vd ∧
    r.nact_occ.isSome = opts.threshold_occ.isSome ∧
    r.nact_vir.isSome = opts.threshold_vir.isSome ∧
    r.sigma_o.isSome = (opts.threshold_occ.isSome || opts.num_act_occ.isSome) ∧
    r.sigma_v.isSome = (opts.threshold_vir.isSome || opts.num_act_vir.isSome) := by
  rw [select] at h
  rcases hp1 : fixedStage opts.num_act_occ (fun v => 1 - v) od occL
      (threshStage opts.threshold_occ (fun v => 1 - v) od occL
        (List.replicate nir 0)).1
      (threshStage opts.threshold_vir (fun v => v) vd virL
        (threshStage opts.threshold_occ (fun v => 1 - v) od occL
          (List.replicate nir 0)).2.1).2.1
      (threshStage opts.threshold_occ (fun v => 1 - v) od occL
        (List.replicate nir 0)).2.2.1 with e | p1
  · rw [hp1] at h; cases h
  · rw [hp1] at h
    dsimp only at h
    rcases hp2 : fixedStage opts.num_act_vir (fun v => v) vd virL
        (threshStage opts.threshold_vir (fun v => v) vd virL
          (threshStage opts.threshold_occ (fun v => 1 - v) od occL
            (List.replicate nir 0)).2.1).1
        p1.1
        (threshStage opts.threshold_vir (fun v => v) vd virL
          (threshStage opts.threshold_occ (fun v => 1 - v) od occL
            (List.replicate nir 0)).2.1).2.2.1 with e | p2
    · rw [hp2] at h; cases h
    · rw [hp2] at h
      cases h
      have h1 := threshStage_inv opts.threshold_occ (fun v => 1 - v) od occL
        (List.replicate nir 0)
      have h2 := threshStage_inv opts.threshold_vir (fun v => v) vd virL
        (threshStage opts.threshold_occ (fun v => 1 - v) od occL
          (List.replicate nir 0)).2.1
      have h3 := fixedStage_inv _ _ _ _ _ _ _ _ hp1
      have h4 := fixedStage_inv _ _ _ _ _ _ _ _ hp2
      refine ⟨?_, rfl, rfl, rfl, ?_, ?_, ?_, ?_⟩
      · rw [h4.1, h3.1, h2.1, h1.1, List.length_replicate]
      · exact h1.2.2
      · exact h2.2.2
      · rw [h3.2, h1.2.1]
      · rw [h4.2, h2.2.1]

/-- C8 counterexample.  A successful fixed-count-only call whose result
omits the per-manifold active occupied count: the `num_act_occ` branch of
the source never writes `results['nact_occ']`. -/
theorem result_fields_cex :
    find_active_space [[1/2]] [[1/2]] { num_act_occ := some 1 } =
      .ok { sigma_o := some 1, sigma_v := none, nact_occ := none, nact_vir := none,
            active := [1], nact := 1, occ_denominator := 1/2, vir_denominator := 1/2 } ∧
    (find_active_space [[1/2]] [[1/2]] { num_act_occ := some 1 }).toOption.map
      Results.nact_occ = some none := by
  have h : find_active_space [[1/2]] [[1/2]] { num_act_occ := some 1 } =
      .ok { sigma_o := some 1, sigma_v := none, nact_occ := none, nact_vir := none,
            active := [1], nact := 1, occ_denominator := 1/2,
            vir_denominator := 1/2 } := by
    norm_num [find_active_space, select, threshStage, fixedStage, buildOccupied,
      buildVirtual, occDenominator, virDenominator, tagFrom, tagBlock, sortOccupied,
      sortVirtual, List.insertionSort, List.orderedInsert, threshLoop, fixedLoop, incr,
      occLE, virGE, List.take, List.enum, List.enumFrom, List.getD]
  exact ⟨h, by rw [h]; rfl⟩

/-- C8 (amended).  Every successful call returns the per-block counts (one
slot per symmetry block of the occupied input), the total active count as
their sum, the denominators used, the achieved fraction for each manifold
for which a criterion was supplied — but the per-manifold counts
`nact_occ` / `nact_vir` only for the manifolds selected in threshold mode;
fixed-count mode does not report them. -/
theorem result_fields (occB virB : List (List ℚ)) (opts : Options) (r : Results)
    (h : find_active_space occB virB opts = .ok r) :
    r.active.length = occB.length ∧ r.nact = r.active.sum ∧
    r.occ_denominator = occDenominator occB virB ∧
    r.vir_denominator = virDenominator occB virB ∧
    r.nact_occ.isSome = opts.threshold_occ.isSome ∧
    r.nact_vir.isSome = opts.threshold_vir.isSome ∧
    r.sigma_o.isSome = (opts.threshold_occ.isSome || opts.num_act_occ.isSome) ∧
    r.sigma_v.isSome = (opts.threshold_vir.isSome || opts.num_act_vir.isSome) := by
  rw [find_active_space] at h
  exact select_ok_fields _ _ _ _ _ opts r h

/-- Witness for the amended C8 at a concrete threshold-plus-fixed-count
call. -/
theorem result_fields_witness :
    ∃ r, find_active_space [[1/2]] [[1/2]]
        { threshold_occ := some 1, num_act_vir := some 1 } = .ok r ∧
      (r.active.length = 1 ∧ r.nact = r.active.sum ∧
        r.occ_denominator = occDenominator [[1/2]] [[1/2]] ∧
        r.vir_denominator = virDenominator [[1/2]] [[1/2]] ∧
        r.nact_occ.isSome = true ∧ r.nact_vir.isSome = false ∧
        r.sigma_o.isSome = true ∧ r.sigma_v.isSome = true) := by
  have hok : find_active_space [[1/2]] [[1/2]]
      { threshold_occ := some 1, num_act_vir := some 1 } =
      .ok { sigma_o := some 1, sigma_v := some 1, nact_occ := some 1, nact_vir := none,
            active := [2], nact := 2, occ_denominator := 1/2,
            vir_denominator := 1/2 } := by
    norm_num [find_active_space, select, threshStage, fixedStage, buildOccupied,
      buildVirtual, occDenominator, virDenominator, tagFrom, tagBlock, sortOccupied,
      sortVirtual, List.insertionSort, List.orderedInsert, threshLoop, fixedLoop, incr,
      occLE, virGE, List.take, List.enum, List.enumFrom, List.getD]
  refine ⟨_, hok, ?_⟩
  have := result_fields [[1/2]] [[1/2]]
    { threshold_occ := some 1, num_act_vir := some 1 } _ hok
  simpa using this

/-! ### Permutation invariance (C7)

The selection result depends on an entry only through its block tag and its
occupation value — the within-block index is carried for diagnostics only.
Projecting the tagged lists to `(block, value)` pairs, the stable sort of a
block-ordered list is the unique list sorted lexicographically by
`(value, block)`, which depends only on the per-block value multisets. -/

/-- The part of a tagged entry the selection actually uses. -/
def proj (e : Entry) : ℕ × ℚ := (e.1, e.2.1)

/-- The occupied sort key on projected entries. -/
def pOccLE (p q : ℕ × ℚ) : Prop := p.2 ≤ q.2

instance : DecidableRel pOccLE := fun p q => inferInstanceAs (Decidable (p.2 ≤ q.2))

/-- The virtual sort key on projected entries. -/
def pVirGE (p q : ℕ × ℚ) : Prop := q.2 ≤ p.2

instance : DecidableRel pVirGE := fun p q => inferInstanceAs (Decidable (q.2 ≤ p.2))

/-- Block-index order on projected entries. -/
def fstLE (p q : ℕ × ℚ) : Prop := p.1 ≤ q.1

/-- Value-then-block lexicographic order: the order realised by a stable
ascending value sort of a block-ordered list. -/
def lexOcc (p q : ℕ × ℚ) : Prop := p.2 < q.2 ∨ (p.2 = q.2 ∧ p.1 ≤ q.1)

/-- Reverse-value-then-block lexicographic order: the order realised by a
stable descending value sort of a block-ordered list. -/
def lexVir (p q : ℕ × ℚ) : Prop := q.2 < p.2 ∨ (p.2 = q.2 ∧ p.1 ≤ q.1)

instance : IsTrans (ℕ × ℚ) lexOcc :=
  ⟨by
    rintro a b c (h1 | ⟨e1, h1⟩) (h2 | ⟨e2, h2⟩)
    · exact Or.inl (h1.trans h2)
    · exact Or.inl (e2 ▸ h1)
    · exact Or.inl (e1 ▸ h2)
    · exact Or.inr ⟨e1.trans e2, h1.trans h2⟩⟩

instance : IsAntisymm (ℕ × ℚ) lexOcc :=
  ⟨by
    rintro ⟨a1, a2⟩ ⟨b1, b2⟩ (h1 | ⟨e1, h1⟩) (h2 | ⟨e2, h2⟩) <;>
      first
        | exact absurd h1 (not_lt.mpr h2.le)
        | exact absurd h2 (not_lt.mpr h1.le)
        | exact absurd h1 (not_lt.mpr e2.le)
        | exact absurd h2 (not_lt.mpr e1.le)
        | exact Prod.ext (le_antisymm h1 h2) e1⟩

instance : IsTrans (ℕ × ℚ) lexVir :=
  ⟨by
    rintro a b c (h1 | ⟨e1, h1⟩) (h2 | ⟨e2, h2⟩)
    · exact Or.inl (h2.trans h1)
    · exact Or.inl (e2 ▸ h1)
    · exact Or.inl (e1.symm ▸ h2)
    · exact Or.inr ⟨e1.trans e2, h1.trans h2⟩⟩

instance : IsAntisymm (ℕ × ℚ) lexVir :=
  ⟨by
    rintro ⟨a1, a2⟩ ⟨b1, b2⟩ (h1 | ⟨e1, h1⟩) (h2 | ⟨e2, h2⟩) <;>
      first
        | exact absurd h1 (not_lt.mpr h2.le)
        | exact absurd h2 (not_lt.mpr h1.le)
        | exact absurd h1 (not_lt.mpr e2.ge)
        | exact absurd h2 (not_lt.mpr e1.ge)
        | exact Prod.ext (le_antisymm h1 h2) e1⟩

/-- Projection commutes with one insertion step of the occupied sort. -/
theorem proj_orderedInsert_occ (e : Entry) :
    ∀ (l : List Entry), (List.orderedInsert occLE e l).map proj =
      List.orderedInsert pOccLE (proj e) (l.map proj)
  | [] => rfl
  | b :: l => by
    by_cases h : occLE e b
    · rw [List.orderedInsert, if_pos h, List.map_cons, List.map_cons,
        List.orderedInsert, if_pos (show pOccLE (proj e) (proj b) from h)]
    · rw [List.orderedInsert, if_neg h, List.map_cons, List.map_cons,
        List.orderedInsert, if_neg (show ¬ pOccLE (proj e) (proj b) from h),
        proj_orderedInsert_occ e l]

/-- Projection commutes with one insertion step of the virtual sort. -/
theorem proj_orderedInsert_vir (e : Entry) :
    ∀ (l : List Entry), (List.orderedInsert virGE e l).map proj =
      List.orderedInsert pVirGE (proj e) (l.map proj)
  | [] => rfl
  | b :: l => by
    by_cases h : virGE e b
    · rw [List.orderedInsert, if_pos h, List.map_cons, List.map_cons,
        List.orderedInsert, if_pos (show pVirGE (proj e) (proj b) from h)]
    · rw [List.orderedInsert, if_neg h, List.map_cons, List.map_cons,
        List.orderedInsert, if_neg (show ¬ pVirGE (proj e) (proj b) from h),
        proj_orderedInsert_vir e l]

/-- Projection commutes with the occupied sort. -/
theorem proj_sortOccupied : ∀ (l : List Entry),
    (sortOccupied l).map proj = List.insertionSort pOccLE (l.map proj)
  | [] => rfl
  | e :: l => by
    rw [sortOccupied, List.insertionSort, proj_orderedInsert_occ, List.map_cons,
      List.insertionSort]
    rw [show (List.insertionSort occLE l).map proj = (sortOccupied l).map proj from rfl,
      proj_sortOccupied l]

/-- Projection commutes with the virtual sort. -/
theorem proj_sortVirtual : ∀ (l : List Entry),
    (sortVirtual l).map proj = List.insertionSort pVirGE (l.map proj)
  | [] => rfl
  | e :: l => by
    rw [sortVirtual, List.insertionSort, proj_orderedInsert_vir, List.map_cons,
      List.insertionSort]
    rw [show (List.insertionSort virGE l).map proj = (sortVirtual l).map proj from rfl,
      proj_sortVirtual l]

/-- Inserting an element whose block index is a lower bound of a
lex-sorted list by ascending value keeps the list lex-sorted: among equal
values the incoming element goes first, and its block index is smallest. -/
theorem lex_orderedInsert_occ (a : ℕ × ℚ) :
    ∀ (s : List (ℕ × ℚ)), s.Sorted lexOcc → (∀ x ∈ s, a.1 ≤ x.1) →
      (List.orderedInsert pOccLE a s).Sorted lexOcc
  | [], _, _ => List.sorted_singleton a
  | b :: s, hs, ha => by
    rw [List.sorted_cons] at hs
    by_cases h : pOccLE a b
    · rw [List.orderedInsert, if_pos h]
      have hab : lexOcc a b := by
        rcases lt_or_eq_of_le (show a.2 ≤ b.2 from h) with h' | h'
        · exact Or.inl h'
        · exact Or.inr ⟨h', ha b (List.mem_cons_self b s)⟩
      rw [List.sorted_cons]
      refine ⟨?_, List.sorted_cons.mpr hs⟩
      intro x hx
      rcases List.mem_cons.mp hx with rfl | hx
      · exact hab
      · exact Trans.trans hab (hs.1 x hx)
    · rw [List.orderedInsert, if_neg h]
      have hba : b.2 < a.2 := not_le.mp h
      rw [List.sorted_cons]
      constructor
      · intro x hx
        rcases (List.mem_orderedInsert pOccLE).mp hx with rfl | hx
        · exact Or.inl hba
        · exact hs.1 x hx
      · exact lex_orderedInsert_occ a s hs.2
          (fun x hx => ha x (List.mem_cons_of_mem b hx))

/-- Inserting an element whose block index is a lower bound of a
lex-sorted list by descending value keeps the list lex-sorted. -/
theorem lex_orderedInsert_vir (a : ℕ × ℚ) :
    ∀ (s : List (ℕ × ℚ)), s.Sorted lexVir → (∀ x ∈ s, a.1 ≤ x.1) →
      (List.orderedInsert pVirGE a s).Sorted lexVir
  | [], _, _ => List.sorted_singleton a
  | b :: s, hs, ha => by
    rw [List.sorted_cons] at hs
    by_cases h : pVirGE a b
    · rw [List.orderedInsert, if_pos h]
      have hab : lexVir a b := by
        rcases lt_or_eq_of_le (show b.2 ≤ a.2 from h) with h' | h'
        · exact Or.inl h'
        · exact Or.inr ⟨h'.symm, ha b (List.mem_cons_self b s)⟩
      rw [List.sorted_cons]
      refine ⟨?_, List.sorted_cons.mpr hs⟩
      intro x hx
      rcases List.mem_cons.mp hx with rfl | hx
      · exact hab
      · exact Trans.trans hab (hs.1 x hx)
    · rw [List.orderedInsert, if_neg h]
      have hab : a.2 < b.2 := not_le.mp h
      rw [List.sorted_cons]
      constructor
      · intro x hx
        rcases (List.mem_orderedInsert pVirGE).mp hx with rfl | hx
        · exact Or.inl hab
        · exact hs.1 x hx
      · exact lex_orderedInsert_vir a s hs.2
          (fun x hx => ha x (List.mem_cons_of_mem b hx))

/-- Stable ascending value sort of a block-ordered list is lex-sorted by
value then block. -/
theorem lex_insertionSort_occ :
    ∀ (l : List (ℕ × ℚ)), l.Sorted fstLE →
      (List.insertionSort pOccLE l).Sorted lexOcc
  | [], _ => List.sorted_nil
  | a :: l, hl => by
    rw [List.sorted_cons] at hl
    rw [List.insertionSort]
    refine lex_orderedInsert_occ a _ (lex_insertionSort_occ l hl.2) ?_
    intro x hx
    exact hl.1 x ((List.perm_insertionSort pOccLE l).mem_iff.mp hx)

/-- Stable descending value sort of a block-ordered list is lex-sorted by
reverse value then block. -/
theorem lex_insertionSort_vir :
    ∀ (l : List (ℕ × ℚ)), l.Sorted fstLE →
      (List.insertionSort pVirGE l).Sorted lexVir
  | [], _ => List.sorted_nil
  | a :: l, hl => by
    rw [List.sorted_cons] at hl
    rw [List.insertionSort]
    refine lex_orderedInsert_vir a _ (lex_insertionSort_vir l hl.2) ?_
    intro x hx
    exact hl.1 x ((List.perm_insertionSort pVirGE l).mem_iff.mp hx)

/-- A tagged block projects to its values, each paired with the block
index. -/
theorem tagBlock_proj (sym : ℕ) (vs : List ℚ) :
    (tagBlock sym vs).map proj = vs.map (fun v => (sym, v)) := by
  rw [tagBlock, List.map_map]
  rw [show ((proj ∘ fun p => (sym, p.2, p.1)) : ℕ × ℚ → ℕ × ℚ) =
    ((fun v => (sym, v)) ∘ Prod.snd) from rfl]
  rw [← List.map_map, List.enum_map_snd]

/-- The projected tagged lists are ordered by block index: block tags are
assigned in increasing order along the concatenation. -/
theorem tagFrom_proj_fstLE : ∀ (bs : List (List ℚ × List ℚ)) (sym : ℕ),
    ((tagFrom sym bs).1.map proj).Sorted fstLE ∧
    ((tagFrom sym bs).2.1.map proj).Sorted fstLE
  | [], _ => ⟨List.sorted_nil, List.sorted_nil⟩
  | (ob, vb) :: rest, sym => by
    have ih := tagFrom_proj_fstLE rest (sym + 1)
    have hblock : ∀ (vs : List ℚ) (p : ℕ × ℚ),
        p ∈ (tagBlock sym vs).map proj → p.1 = sym := by
      intro vs p hp
      rw [tagBlock_proj] at hp
      obtain ⟨v, _, rfl⟩ := List.mem_map.mp hp
      rfl
    have hsortblock : ∀ (vs : List ℚ), ((tagBlock sym vs).map proj).Sorted fstLE := by
      intro vs
      rw [tagBlock_proj, List.Sorted, List.pairwise_map]
      exact List.Pairwise.imp (fun _ => le_refl sym)
        (List.pairwise_of_forall_mem_list (fun a _ b _ => trivial) :
          vs.Pairwise (fun _ _ => True))
    constructor
    · rw [tagFrom]
      rw [List.map_append, List.Sorted, List.pairwise_append]
      refine ⟨hsortblock ob, ih.1, ?_⟩
      intro a ha b hb
      obtain ⟨e, he, rfl⟩ := List.mem_map.mp hb
      have := tagFrom_fst_bounds rest (sym + 1) e (Or.inl he)
      rw [fstLE, hblock ob a ha]
      rw [show (proj e).1 = e.1 from rfl]
      omega
    · rw [tagFrom]
      rw [List.map_append, List.Sorted, List.pairwise_append]
      refine ⟨hsortblock vb, ih.2, ?_⟩
      intro a ha b hb
      obtain ⟨e, he, rfl⟩ := List.mem_map.mp hb
      have := tagFrom_fst_bounds rest (sym + 1) e (Or.inr he)
      rw [fstLE, hblock vb a ha]
      rw [show (proj e).1 = e.1 from rfl]
      omega

/-- Blockwise permutations of the two inputs give blockwise permutations
of the zipped block list. -/
theorem zip_forall₂_perm :
    ∀ {xs xs' ys ys' : List (List ℚ)}, List.Forall₂ List.Perm xs xs' →
      List.Forall₂ List.Perm ys ys' →
      List.Forall₂ (fun p q => List.Perm p.1 q.1 ∧ List.Perm p.2 q.2)
        (xs.zip ys) (xs'.zip ys') := by
  intro xs xs' ys ys' h1
  induction h1 generalizing ys ys' with
  | nil =>
    intro h2
    simp [List.zip]
  | cons ha h1 ih =>
    intro h2
    cases h2 with
    | nil => simp [List.zip]
    | cons hb h2 =>
      exact List.Forall₂.cons ⟨ha, hb⟩ (ih h2)

/-- Blockwise permutations of the zipped blocks permute the projected
tagged lists and preserve both denominators. -/
theorem tagFrom_proj_perm :
    ∀ (bs bs' : List (List ℚ × List ℚ)),
      List.Forall₂ (fun p q => List.Perm p.1 q.1 ∧ List.Perm p.2 q.2) bs bs' →
      ∀ (sym : ℕ),
        ((tagFrom sym bs).1.map proj).Perm ((tagFrom sym bs').1.map proj) ∧
        ((tagFrom sym bs).2.1.map proj).Perm ((tagFrom sym bs').2.1.map proj) ∧
        (tagFrom sym bs).2.2.1 = (tagFrom sym bs').2.2.1 ∧
        (tagFrom sym bs).2.2.2 = (tagFrom sym bs').2.2.2
  | [], [], _, sym => ⟨List.Perm.refl _, List.Perm.refl _, rfl, rfl⟩
  | [], _ :: _, h, _ => by cases h
  | _ :: _, [], h, _ => by cases h
  | (a1, a2) :: bs, (b1, b2) :: bs', h, sym => by
    rcases h with _ | ⟨⟨hp1, hp2⟩, hrest⟩
    have ihs := tagFrom_proj_perm bs bs' hrest (sym + 1)
    refine ⟨?_, ?_, ?_, ?_⟩
    · rw [tagFrom, tagFrom]
      rw [List.map_append, List.map_append, tagBlock_proj, tagBlock_proj]
      exact (hp1.map _).append ihs.1
    · rw [tagFrom, tagFrom]
      rw [List.map_append, List.map_append, tagBlock_proj, tagBlock_proj]
      exact (hp2.map _).append ihs.2.1
    · rw [tagFrom, tagFrom]
      rw [show (a1 : List ℚ).length = b1.length from hp1.length_eq, hp1.sum_eq,
        ihs.2.2.1]
    · rw [tagFrom, tagFrom]
      rw [hp2.sum_eq, ihs.2.2.2]

/-- The threshold loop reads an entry only through its projection. -/
theorem threshLoop_proj_congr (f : ℚ → ℚ) (thr d : ℚ) :
    ∀ (l l' : List Entry), l.map proj = l'.map proj →
      ∀ (num : ℚ) (act : List ℕ) (n : ℕ),
        threshLoop f thr d l num act n = threshLoop f thr d l' num act n
  | [], [], _, _, _, _ => rfl
  | [], _ :: _, h, _, _, _ => by simp at h
  | _ :: _, [], h, _, _, _ => by simp at h
  | e :: l, e' :: l', h, num, act, n => by
    simp only [List.map_cons, List.cons.injEq] at h
    have h1 : e.1 = e'.1 := congrArg (Prod.fst : ℕ × ℚ → ℕ) h.1
    have h2 : e.2.1 = e'.2.1 := congrArg (Prod.snd : ℕ × ℚ → ℚ) h.1
    rw [threshLoop, threshLoop, h2, h1]
    by_cases hc : (num + f e'.2.1) / d > thr
    · rw [if_pos hc, if_pos hc]
    · rw [if_neg hc, if_neg hc]
      exact threshLoop_proj_congr f thr d l l' h.2 _ _ _

/-- The fixed-count loop reads an entry only through its projection. -/
theorem fixedLoop_proj_congr (f : ℚ → ℚ) :
    ∀ (k : ℕ) (l l' : List Entry), l.map proj = l'.map proj →
      ∀ (num : ℚ) (act : List ℕ),
        fixedLoop f k l num act = fixedLoop f k l' num act
  | 0, [], [], _, _, _ => rfl
  | 0, [], _ :: _, h, _, _ => by simp at h
  | 0, _ :: _, [], h, _, _ => by simp at h
  | 0, _ :: _, _ :: _, _, _, _ => rfl
  | _ + 1, [], [], _, _, _ => rfl
  | _ + 1, [], _ :: _, h, _, _ => by simp at h
  | _ + 1, _ :: _, [], h, _, _ => by simp at h
  | k + 1, e :: l, e' :: l', h, num, act => by
    simp only [List.map_cons, List.cons.injEq] at h
    have h1 : e.1 = e'.1 := congrArg (Prod.fst : ℕ × ℚ → ℕ) h.1
    have h2 : e.2.1 = e'.2.1 := congrArg (Prod.snd : ℕ × ℚ → ℚ) h.1
    rw [fixedLoop, fixedLoop, h2, h1]
    exact fixedLoop_proj_congr f k l l' h.2 _ _

/-- A threshold stage reads its list only through the projections. -/
theorem threshStage_congr (topt : Option ℚ) (f : ℚ → ℚ) (d : ℚ)
    (l l' : List Entry) (h : l.map proj = l'.map proj) (act : List ℕ) :
    threshStage topt f d l act = threshStage topt f d l' act := by
  cases topt with
  | none => rfl
  | some thr =>
    rw [threshStage, threshStage, threshLoop_proj_congr f thr d l l' h 0 act 0]

/-- A fixed stage reads its list only through the projections. -/
theorem fixedStage_congr (nopt : Option ℕ) (f : ℚ → ℚ) (d : ℚ)
    (l l' : List Entry) (h : l.map proj = l'.map proj) (num : ℚ) (act : List ℕ)
    (sig : Option ℚ) :
    fixedStage nopt f d l num act sig = fixedStage nopt f d l' num act sig := by
  cases nopt with
  | none => rfl
  | some k =>
    rw [fixedStage, fixedStage, fixedLoop_proj_congr f k l l' h num act]

/-- The whole selection phase reads the sorted lists only through the
projections. -/
theorem select_proj_congr (occL occL' virL virL' : List Entry) (od vd : ℚ)
    (nir : ℕ) (opts : Options) (hO : occL.map proj = occL'.map proj)
    (hV : virL.map proj = virL'.map proj) :
    select occL virL od vd nir opts = select occL' virL' od vd nir opts := by
  rw [select, select]
  simp only [threshStage_congr opts.threshold_occ (fun v => 1 - v) od occL occL' hO,
    threshStage_congr opts.threshold_vir (fun v => v) vd virL virL' hV,
    fixedStage_congr opts.num_act_occ (fun v => 1 - v) od occL occL' hO,
    fixedStage_congr opts.num_act_vir (fun v => v) vd virL virL' hV]

/-- C7.  Permuting the orbital order within blocks (in either manifold,
including among equal occupation values) does not change the result of
`find_active_space`: the stable sorts of the block-ordered tagged lists
project to the same value-then-block lexicographically sorted sequence,
and the selection reads entries only through block tag and value. -/
theorem permutation_invariant (occB occB' virB virB' : List (List ℚ))
    (opts : Options) (hO : List.Forall₂ List.Perm occB occB')
    (hV : List.Forall₂ List.Perm virB virB') :
    find_active_space occB virB opts = find_active_space occB' virB' opts := by
  have hz := zip_forall₂_perm hO hV
  have ht := tagFrom_proj_perm (occB.zip virB) (occB'.zip virB') hz 0
  have hsO : (sortOccupied (buildOccupied occB virB)).map proj =
      (sortOccupied (buildOccupied occB' virB')).map proj := by
    rw [proj_sortOccupied, proj_sortOccupied]
    refine List.eq_of_perm_of_sorted ?_
      (lex_insertionSort_occ _ (tagFrom_proj_fstLE (occB.zip virB) 0).1)
      (lex_insertionSort_occ _ (tagFrom_proj_fstLE (occB'.zip virB') 0).1)
    exact ((List.perm_insertionSort pOccLE _).trans ht.1).trans
      (List.perm_insertionSort pOccLE _).symm
  have hsV : (sortVirtual (buildVirtual occB virB)).map proj =
      (sortVirtual (buildVirtual occB' virB')).map proj := by
    rw [proj_sortVirtual, proj_sortVirtual]
    refine List.eq_of_perm_of_sorted ?_
      (lex_insertionSort_vir _ (tagFrom_proj_fstLE (occB.zip virB) 0).2)
      (lex_insertionSort_vir _ (tagFrom_proj_fstLE (occB'.zip virB') 0).2)
    exact ((List.perm_insertionSort pVirGE _).trans ht.2.1).trans
      (List.perm_insertionSort pVirGE _).symm
  have hdO : occDenominator occB virB = occDenominator occB' virB' := ht.2.2.1
  have hdV : virDenominator occB virB = virDenominator occB' virB' := ht.2.2.2
  have hnir : occB.length = occB'.length := hO.length_eq
  rw [find_active_space, find_active_space, hdO, hdV, hnir]
  exact select_proj_congr _ _ _ _ _ _ _ opts hsO hsV

/-- Witness for C7: swapping the two orbitals of the single occupied block
leaves the result unchanged. -/
theorem permutation_invariant_witness :
    find_active_space [[1/2, 1/4]] [[1/3]]
        { threshold_occ := some 1, threshold_vir := some 1 } =
      find_active_space [[1/4, 1/2]] [[1/3]]
        { threshold_occ := some 1, threshold_vir := some 1 } :=
  permutation_invariant [[1/2, 1/4]] [[1/4, 1/2]] [[1/3]] [[1/3]]
    { threshold_occ := some 1, threshold_vir := some 1 }
    (List.Forall₂.cons (List.Perm.swap (1/4) (1/2) []) List.Forall₂.nil)
    (List.Forall₂.cons (List.Perm.refl _) List.Forall₂.nil)

end Cinoas
